import Mathlib

/-!
# Verification of the Cupcake FV (additive-only) homomorphic encryption core

This file embeds the FV scheme layer of `src/lib.rs` (encrypt, encrypt_zero,
encrypt_zero_sk, generate_key, generate_keypair, decrypt, add_inplace,
add_plain_inplace, rerandomize, and the constructors `FV::new` /
`default_2048`) into Lean and proves / refutes the specification claims
about it.

The repository's scalar backend (`integer_arith/scalar.rs`), polynomial
layer (`rqpoly.rs`) and samplers are not present in the sources; only the
`ArithUtils` trait declaration and their call sites are.  Those layers are
modelled from the spec (§4.1–§4.3): a scalar with values in `[0, q)` and
exact modular arithmetic is modelled as `ZMod q` (its non-modular
`mul`/`add`/`div`/`to_u64` accesses go through the stored representative
`ZMod.val`, which is exact because the spec requires loss-free conversions
and none of the intermediate values here overflow a 64-bit word for the
supported moduli); the negacyclic product is the schoolbook convolution of
§4.2.2.  The samplers are randomized, so every sampler output is a
universally quantified argument constrained to the sampler's contracted
support (§4.3: ternary coefficients in `{-1, 0, 1}`; Gaussian coefficients
clamped to `6·stdev`).

Two embeddings are developed:

* namespace `Cupcake`: the representation-free ring semantics (the
  `multiply` path of the dispatch of §4.2.6, which per §4.2.4's round-trip
  law computes the same ring product as the NTT path).  All value-level
  claims are settled here.
* namespace `CupcakeB`: the representation-tagged model of §3/§4.2.4
  (coefficient form vs NTT form), used for the claims about transform
  ordering inside `generate_keypair` and `decrypt`.
-/

namespace Cupcake

/-- `Δ = ⌊q / t⌋` with `t = 256`, as stored by the constructors
(`delta: T::div(q, &T::from_u32_raw(256))` in `FV::new` and
`default_2048`), injected into the modular-scalar domain. -/
def delta (q : ℕ) : ZMod q := ((q / 256 : ℕ) : ZMod q)

/-- `qdivtwo = ⌊q / 2⌋` as stored by the constructors
(`qdivtwo: T::div(q, &T::from_u32_raw(2))`).  Kept as a plain natural
because `decrypt` uses it with the *non-modular* scalar `add`. -/
def qdivtwo (q : ℕ) : ℕ := q / 2

/-- The per-coefficient extraction performed by `FV::decrypt`
(src/lib.rs 341-350): `tmp = T::mul(&x, &256)` (plain product of the
stored representative), `tmp = T::add(&tmp, &self.qdivtwo)` (plain add),
`tmp = T::div(&tmp, &self.q)` (integer division), then
`T::to_u64(tmp) as u8` (reduction mod 256). -/
def extractByte (q : ℕ) (x : ZMod q) : ℕ :=
  (x.val * 256 + qdivtwo q) / q % 256

/-- In-place coefficient-wise addition `RqPoly::add_inplace`.
Modelled from the spec: §4.2.1/§4.2.5; `rqpoly.rs` is absent from the
sources.  The Rust loop `for (a, b) in self.coeffs.iter_mut().zip(other)`
updates the first `min` coefficients and leaves any tail of the receiver
unchanged, which is what `zipWith (+) ++ drop` computes. -/
def addInplace {q : ℕ} (a b : List (ZMod q)) : List (ZMod q) :=
  (List.zipWith (· + ·) a b) ++ a.drop b.length

/-- In-place coefficient-wise subtraction `RqPoly::sub_inplace`.
Modelled from the spec: §4.2.1/§4.2.5 (`rqpoly.rs` absent), with the same
in-place `zip` shape as `addInplace`. -/
def subInplace {q : ℕ} (a b : List (ZMod q)) : List (ZMod q) :=
  (List.zipWith (· - ·) a b) ++ a.drop b.length

/-- Negacyclic schoolbook product `RqPoly::multiply`.
Modelled from the spec: §4.2.2 (`rqpoly.rs` absent from the sources):
"for i, j in [0, n), accumulate a[i]·b[j] into index (i+j) mod n with sign
(−1)^⌊(i+j)/n⌋".  The FV layer reaches it through the `poly_multiplier`
dispatch of §4.2.6; by the NTT round-trip law (§4.2.4) the `multiply_fast`
path computes the same ring product. -/
def negconv (q n : ℕ) (a b : List (ZMod q)) : List (ZMod q) :=
  (List.range n).map (fun k =>
    ∑ p ∈ (Finset.range n ×ˢ Finset.range n).filter
        (fun p => (p.1 + p.2) % n = k),
      (-1 : ZMod q) ^ ((p.1 + p.2) / n) * a.getD p.1 0 * b.getD p.2 0)

/-- A ciphertext `(c0, c1)`; `FVCiphertext<T> = (RqPoly<T>, RqPoly<T>)`. -/
abbrev Ct (q : ℕ) := List (ZMod q) × List (ZMod q)

/-- The plaintext-injection loop inside `FV::encrypt` (src/lib.rs 257-261):
for each pair `(x, y)` of a `c1` coefficient and a plaintext byte,
`x = T::add_mod(x, T::mul(from_u32_raw(y), delta), q)`. -/
def encryptInject (q : ℕ) (c1 : List (ZMod q)) (pt : List ℕ) : List (ZMod q) :=
  (List.zipWith (fun (x : ZMod q) (y : ℕ) => x + (y : ZMod q) * delta q) c1 pt)
    ++ c1.drop pt.length

/-- The loop of `FV::add_plain_inplace` (src/lib.rs 149-152): identical
per-coefficient update, written as its own definition because it is a
separate loop in the source. -/
def addPlainLoop (q : ℕ) (c1 : List (ZMod q)) (pt : List ℕ) : List (ZMod q) :=
  (List.zipWith (fun (x : ZMod q) (y : ℕ) => x + (y : ZMod q) * delta q) c1 pt)
    ++ c1.drop pt.length

/-- `FV::add_inplace` (src/lib.rs 141-144): component-wise `add_inplace`
on `c0` and `c1`. -/
def addCt {q : ℕ} (ct1 ct2 : Ct q) : Ct q :=
  (addInplace ct1.1 ct2.1, addInplace ct1.2 ct2.2)

/-- `FV::add_plain_inplace` (src/lib.rs 147-153): mutates only `c1`. -/
def addPlain (q : ℕ) (ct : Ct q) (pt : List ℕ) : Ct q :=
  (ct.1, addPlainLoop q ct.2 pt)

/-- `FV::encrypt_zero` (src/lib.rs 265-282) on the ring semantics
(non-NTT dispatch, where the `forward_transform` of `u` at line 270-272
does not run): `c0 = multiply(pk.0, u) + e1`, `c1 = multiply(pk.1, u) + e2`.
The sampler outputs `u` (ternary, PRNG variant), `e1`, `e2`
(Gaussian(σ)) are passed explicitly. -/
def encryptZero (q n : ℕ) (pk : Ct q) (u e1 e2 : List (ZMod q)) : Ct q :=
  (addInplace (negconv q n pk.1 u) e1, addInplace (negconv q n pk.2 u) e2)

/-- `FV::encrypt` (src/lib.rs 250-263): `encrypt_zero` followed by the
`Δ·m` injection loop on `c1`. -/
def encrypt (q n : ℕ) (pt : List ℕ) (pk : Ct q) (u e1 e2 : List (ZMod q)) : Ct q :=
  let z := encryptZero q n pk u e1 e2
  (z.1, encryptInject q z.2 pt)

/-- `FV::encrypt_zero_sk` (src/lib.rs 309-315) on the ring semantics:
`b = multiply(a, sk) + e`, returns `(a, b)`.  `a` (uniform) and `e`
(Gaussian(σ)) are the sampler outputs. -/
def encryptZeroSk (q n : ℕ) (sk a e : List (ZMod q)) : Ct q :=
  (a, addInplace (negconv q n a sk) e)

/-- `FV::generate_key` (src/lib.rs 301-307) on the ring semantics: the
sampled ternary polynomial, with the NTT-enabled forward transform not
taken (non-NTT dispatch). -/
def generateKey {q : ℕ} (s : List (ZMod q)) : List (ZMod q) := s

/-- `FV::generate_keypair` (src/lib.rs 284-292) on the ring semantics:
`sk = generate_key`, `pk = encrypt_zero_sk(sk)`, no transforms on the
non-NTT dispatch. -/
def generateKeypair (q n : ℕ) (s a e : List (ZMod q)) :
    Ct q × List (ZMod q) :=
  (encryptZeroSk q n (generateKey s) a e, generateKey s)

/-- `FV::decrypt` (src/lib.rs 335-352): `temp1 = multiply(ct.0, sk)`,
`phase = ct.1 - temp1` (in place), then the byte extraction loop. -/
def decrypt (q n : ℕ) (ct : Ct q) (sk : List (ZMod q)) : List ℕ :=
  (subInplace ct.2 (negconv q n ct.1 sk)).map (extractByte q)

/-- The phase value `ct.1 − ct.0·s` computed inside `decrypt`. -/
def phase (q n : ℕ) (ct : Ct q) (sk : List (ZMod q)) : List (ZMod q) :=
  subInplace ct.2 (negconv q n ct.1 sk)

/-- `FV::rerandomize` (src/lib.rs 156-165): add an encryption of zero to
both components, then add the flooding noise polynomial `elarge`
(Gaussian(σ_flood)) to `c1` only. -/
def rerandomize (q n : ℕ) (ct pk : Ct q) (u e1 e2 eflood : List (ZMod q)) : Ct q :=
  let ct' := addCt ct (encryptZero q n pk u e1 e2)
  (ct'.1, addInplace ct'.2 eflood)

/-! ## The scheme constructors (parameter bookkeeping)

The numeric fields of the `FV` struct as set by `FV::new`
(src/lib.rs 174-196) and `FV::default_2048` (src/lib.rs 199-221).  The
two `f64` fields hold `1f64`, `2f64.powi(40)` (both exactly representable
floats, modelled by the exact rationals `1` and `2^40`) and the nominal
constant `3.2` (modelled by the rational `16/5`; no claim depends on its
value). -/

structure FVParams where
  n : ℕ
  q : ℕ
  delta : ℕ
  qdivtwo : ℕ
  stdev : ℚ
  flooding_stdev : ℚ

/-- `FV::new(n, q)` (src/lib.rs 174-196): note `flooding_stdev: 1f64`. -/
def FVnew (n q : ℕ) : FVParams :=
  { n := n
    q := q
    delta := q / 256
    qdivtwo := q / 2
    stdev := 16 / 5
    flooding_stdev := 1 }

/-- `FV::<Scalar>::default_2048()` (src/lib.rs 199-221):
`flooding_stdev: 2f64.powi(40)`. -/
def default2048 : FVParams :=
  { n := 2048
    q := 18014398492704769
    delta := 18014398492704769 / 256
    qdivtwo := 18014398492704769 / 2
    stdev := 16 / 5
    flooding_stdev := 2 ^ 40 }

/-- The crate-level `default()` (src/lib.rs 117-119), which returns
`FV::<Scalar>::default_2048()`. -/
def defaultScheme : FVParams := default2048

/-! ## Basic lemmas about the in-place list operations -/

theorem length_addInplace {q : ℕ} (a b : List (ZMod q)) :
    (addInplace a b).length = a.length := by
  simp [addInplace]
  omega

theorem length_subInplace {q : ℕ} (a b : List (ZMod q)) :
    (subInplace a b).length = a.length := by
  simp [subInplace]
  omega

theorem length_encryptInject (q : ℕ) (c1 : List (ZMod q)) (pt : List ℕ) :
    (encryptInject q c1 pt).length = c1.length := by
  unfold encryptInject
  rw [List.length_append, List.length_zipWith, List.length_drop]
  omega

theorem length_addPlainLoop (q : ℕ) (c1 : List (ZMod q)) (pt : List ℕ) :
    (addPlainLoop q c1 pt).length = c1.length := by
  unfold addPlainLoop
  rw [List.length_append, List.length_zipWith, List.length_drop]
  omega

theorem length_negconv (q n : ℕ) (a b : List (ZMod q)) :
    (negconv q n a b).length = n := by
  simp [negconv]

theorem addInplace_eq_zipWith {q : ℕ} {a b : List (ZMod q)}
    (h : b.length = a.length) :
    addInplace a b = List.zipWith (· + ·) a b := by
  simp [addInplace, h, List.drop_length]

theorem subInplace_eq_zipWith {q : ℕ} {a b : List (ZMod q)}
    (h : b.length = a.length) :
    subInplace a b = List.zipWith (· - ·) a b := by
  simp [subInplace, h, List.drop_length]

theorem getD_addInplace {q : ℕ} {a b : List (ZMod q)}
    (h : b.length = a.length) (k : ℕ) :
    (addInplace a b).getD k 0 = a.getD k 0 + b.getD k 0 := by
  rw [addInplace_eq_zipWith h]
  by_cases hk : k < a.length
  · rw [List.getD_eq_getElem _ _ (by simp [h]; omega),
      List.getD_eq_getElem _ _ hk, List.getD_eq_getElem _ _ (by omega),
      List.getElem_zipWith]
  · rw [List.getD_eq_default _ _ (by simp; omega),
      List.getD_eq_default _ _ (by omega), List.getD_eq_default _ _ (by omega)]
    simp

theorem getD_subInplace {q : ℕ} {a b : List (ZMod q)}
    (h : b.length = a.length) (k : ℕ) :
    (subInplace a b).getD k 0 = a.getD k 0 - b.getD k 0 := by
  rw [subInplace_eq_zipWith h]
  by_cases hk : k < a.length
  · rw [List.getD_eq_getElem _ _ (by simp [h]; omega),
      List.getD_eq_getElem _ _ hk, List.getD_eq_getElem _ _ (by omega),
      List.getElem_zipWith]
  · rw [List.getD_eq_default _ _ (by simp; omega),
      List.getD_eq_default _ _ (by omega), List.getD_eq_default _ _ (by omega)]
    simp

theorem getD_encryptInject {q : ℕ} {c1 : List (ZMod q)} {pt : List ℕ}
    (h : pt.length = c1.length) (k : ℕ) :
    (encryptInject q c1 pt).getD k 0
      = c1.getD k 0 + (pt.getD k 0 : ZMod q) * delta q := by
  unfold encryptInject
  rw [h, List.drop_length, List.append_nil]
  by_cases hk : k < c1.length
  · rw [List.getD_eq_getElem _ _ (by simp [h]; omega),
      List.getD_eq_getElem _ _ hk, List.getD_eq_getElem (l := pt) _ (by omega),
      List.getElem_zipWith]
  · rw [List.getD_eq_default _ _ (by simp; omega),
      List.getD_eq_default _ _ (by omega),
      List.getD_eq_default (l := pt) _ (by omega)]
    simp

theorem addPlainLoop_eq_encryptInject (q : ℕ) (c1 : List (ZMod q)) (pt : List ℕ) :
    addPlainLoop q c1 pt = encryptInject q c1 pt := rfl

theorem getD_negconv {q : ℕ} {n : ℕ} (a b : List (ZMod q)) {k : ℕ}
    (hk : k < n) :
    (negconv q n a b).getD k 0
      = ∑ p ∈ (Finset.range n ×ˢ Finset.range n).filter
          (fun p => (p.1 + p.2) % n = k),
        (-1 : ZMod q) ^ ((p.1 + p.2) / n) * a.getD p.1 0 * b.getD p.2 0 := by
  rw [List.getD_eq_getElem _ _ (by simp [length_negconv]; omega)]
  unfold negconv
  rw [List.getElem_map]
  simp only [List.getElem_range]

/-! ## The quotient ring `(ZMod q)[X]/(X^n + 1)` and the product law

The negacyclic schoolbook product is related to the true ring product in
`(ZMod q)[X]/(X^n + 1)`; the exchange law `(a⋆u)⋆s = (a⋆s)⋆u` needed for
FV correctness is transported through this ring. -/

/-- The defining polynomial `X^n + 1` of the quotient ring `R_q`. -/
noncomputable def negacyclicMod (q n : ℕ) : Polynomial (ZMod q) :=
  Polynomial.X ^ n + 1

/-- Coefficient list to polynomial. -/
noncomputable def toPoly {q : ℕ} (a : List (ZMod q)) : Polynomial (ZMod q) :=
  ∑ i ∈ Finset.range a.length, Polynomial.monomial i (a.getD i 0)

/-- Coefficient list to its residue in `(ZMod q)[X]/(X^n + 1)`. -/
noncomputable def toAR (q n : ℕ) (a : List (ZMod q)) :
    AdjoinRoot (negacyclicMod q n) :=
  AdjoinRoot.mk (negacyclicMod q n) (toPoly a)

theorem coeff_toPoly {q : ℕ} (a : List (ZMod q)) (i : ℕ) :
    (toPoly a).coeff i = a.getD i 0 := by
  unfold toPoly
  rw [Polynomial.finset_sum_coeff]
  simp only [Polynomial.coeff_monomial]
  rw [Finset.sum_ite_eq' (Finset.range a.length) i]
  by_cases hi : i < a.length
  · rw [if_pos (Finset.mem_range.mpr hi)]
  · rw [if_neg (by simp [hi]), List.getD_eq_default _ _ (by omega)]

theorem degree_toPoly_lt {q n : ℕ} {a : List (ZMod q)}
    (ha : a.length ≤ n) :
    (toPoly a).degree < (n : WithBot ℕ) := by
  rw [Polynomial.degree_lt_iff_coeff_zero]
  intro m hm
  rw [coeff_toPoly]
  exact List.getD_eq_default _ _ (by omega)

theorem monic_negacyclicMod {q n : ℕ} (hn : 0 < n) :
    (negacyclicMod q n).Monic := by
  have h := Polynomial.monic_X_pow_add_C (R := ZMod q) (1 : ZMod q) hn.ne'
  simpa [negacyclicMod] using h

theorem degree_negacyclicMod {q n : ℕ} (hq1 : 1 < q) (hn : 0 < n) :
    (negacyclicMod q n).degree = n := by
  haveI : Fact (1 < q) := ⟨hq1⟩
  have h := Polynomial.degree_X_pow_add_C (R := ZMod q) hn (1 : ZMod q)
  simpa [negacyclicMod] using h

theorem toAR_inj {q n : ℕ} (hq1 : 1 < q) (hn : 0 < n)
    {a b : List (ZMod q)} (ha : a.length = n) (hb : b.length = n)
    (h : toAR q n a = toAR q n b) : a = b := by
  haveI : Fact (1 < q) := ⟨hq1⟩
  have hdvd : negacyclicMod q n ∣ toPoly a - toPoly b :=
    AdjoinRoot.mk_eq_mk.mp h
  have hdeg : (toPoly a - toPoly b).degree < (negacyclicMod q n).degree := by
    rw [degree_negacyclicMod hq1 hn]
    exact lt_of_le_of_lt (Polynomial.degree_sub_le _ _)
      (max_lt (degree_toPoly_lt ha.le) (degree_toPoly_lt hb.le))
  have hmod0 : (toPoly a - toPoly b) %ₘ negacyclicMod q n = 0 :=
    (Polynomial.modByMonic_eq_zero_iff_dvd (monic_negacyclicMod hn)).mpr hdvd
  have hmodself : (toPoly a - toPoly b) %ₘ negacyclicMod q n
      = toPoly a - toPoly b :=
    (Polynomial.modByMonic_eq_self_iff (monic_negacyclicMod hn)).mpr hdeg
  have hpoly : toPoly a = toPoly b := by
    have := hmodself.symm.trans hmod0
    exact sub_eq_zero.mp this
  refine List.ext_getElem (by omega) ?_
  intro i h1 h2
  have := congrArg (fun p => Polynomial.coeff p i) hpoly
  simp only [coeff_toPoly] at this
  rwa [List.getD_eq_getElem _ _ h1, List.getD_eq_getElem _ _ h2] at this

theorem toAR_eq_sum (q n : ℕ) (a : List (ZMod q)) :
    toAR q n a = ∑ i ∈ Finset.range a.length,
      AdjoinRoot.of (negacyclicMod q n) (a.getD i 0)
        * AdjoinRoot.root (negacyclicMod q n) ^ i := by
  unfold toAR toPoly
  rw [map_sum]
  refine Finset.sum_congr rfl ?_
  intro i _
  rw [← Polynomial.C_mul_X_pow_eq_monomial, map_mul, map_pow,
    AdjoinRoot.mk_C, AdjoinRoot.mk_X]

theorem root_pow_negacyclic (q n : ℕ) :
    AdjoinRoot.root (negacyclicMod q n) ^ n = -1 := by
  have h : AdjoinRoot.mk (negacyclicMod q n) (Polynomial.X ^ n + 1) = 0 :=
    AdjoinRoot.mk_self
  rw [map_add, map_pow, AdjoinRoot.mk_X, map_one] at h
  linear_combination h

theorem toAR_negconv {q n : ℕ} (hn : 0 < n) {a b : List (ZMod q)}
    (ha : a.length = n) (hb : b.length = n) :
    toAR q n (negconv q n a b) = toAR q n a * toAR q n b := by
  rw [toAR_eq_sum, toAR_eq_sum, toAR_eq_sum, length_negconv, ha, hb,
    Finset.sum_mul_sum]
  calc
    ∑ k ∈ Finset.range n,
      AdjoinRoot.of (negacyclicMod q n) ((negconv q n a b).getD k 0)
        * AdjoinRoot.root (negacyclicMod q n) ^ k
      = ∑ k ∈ Finset.range n,
          ∑ p ∈ (Finset.range n ×ˢ Finset.range n).filter
            (fun p => (p.1 + p.2) % n = k),
          AdjoinRoot.of (negacyclicMod q n)
              ((-1 : ZMod q) ^ ((p.1 + p.2) / n) * a.getD p.1 0 * b.getD p.2 0)
            * AdjoinRoot.root (negacyclicMod q n) ^ ((p.1 + p.2) % n) := by
        refine Finset.sum_congr rfl ?_
        intro k hk
        rw [getD_negconv a b (Finset.mem_range.mp hk), map_sum,
          Finset.sum_mul]
        refine Finset.sum_congr rfl ?_
        intro p hp
        rw [(Finset.mem_filter.mp hp).2]
    _ = ∑ p ∈ Finset.range n ×ˢ Finset.range n,
          AdjoinRoot.of (negacyclicMod q n)
              ((-1 : ZMod q) ^ ((p.1 + p.2) / n) * a.getD p.1 0 * b.getD p.2 0)
            * AdjoinRoot.root (negacyclicMod q n) ^ ((p.1 + p.2) % n) := by
        refine Finset.sum_fiberwise_of_maps_to ?_ _
        intro p _
        exact Finset.mem_range.mpr (Nat.mod_lt _ hn)
    _ = ∑ i ∈ Finset.range n, ∑ j ∈ Finset.range n,
          AdjoinRoot.of (negacyclicMod q n) (a.getD i 0)
              * AdjoinRoot.root (negacyclicMod q n) ^ i
            * (AdjoinRoot.of (negacyclicMod q n) (b.getD j 0)
              * AdjoinRoot.root (negacyclicMod q n) ^ j) := by
        rw [Finset.sum_product]
        refine Finset.sum_congr rfl ?_
        intro i _
        refine Finset.sum_congr rfl ?_
        intro j _
        have hsplit : AdjoinRoot.root (negacyclicMod q n) ^ (i + j)
            = (-1 : AdjoinRoot (negacyclicMod q n)) ^ ((i + j) / n)
              * AdjoinRoot.root (negacyclicMod q n) ^ ((i + j) % n) := by
          conv_lhs => rw [← Nat.div_add_mod (i + j) n]
          rw [pow_add, pow_mul, root_pow_negacyclic]
        have hofneg : AdjoinRoot.of (negacyclicMod q n) ((-1 : ZMod q) ^ ((i + j) / n))
            = (-1 : AdjoinRoot (negacyclicMod q n)) ^ ((i + j) / n) := by
          rw [map_pow, map_neg, map_one]
        rw [map_mul, map_mul, hofneg]
        calc
          (-1 : AdjoinRoot (negacyclicMod q n)) ^ ((i + j) / n)
              * AdjoinRoot.of (negacyclicMod q n) (a.getD i 0)
              * AdjoinRoot.of (negacyclicMod q n) (b.getD j 0)
              * AdjoinRoot.root (negacyclicMod q n) ^ ((i + j) % n)
            = AdjoinRoot.of (negacyclicMod q n) (a.getD i 0)
              * AdjoinRoot.of (negacyclicMod q n) (b.getD j 0)
              * ((-1 : AdjoinRoot (negacyclicMod q n)) ^ ((i + j) / n)
                * AdjoinRoot.root (negacyclicMod q n) ^ ((i + j) % n)) := by
              ring
          _ = AdjoinRoot.of (negacyclicMod q n) (a.getD i 0)
              * AdjoinRoot.of (negacyclicMod q n) (b.getD j 0)
              * AdjoinRoot.root (negacyclicMod q n) ^ (i + j) := by
              rw [← hsplit]
          _ = AdjoinRoot.of (negacyclicMod q n) (a.getD i 0)
                * AdjoinRoot.root (negacyclicMod q n) ^ i
              * (AdjoinRoot.of (negacyclicMod q n) (b.getD j 0)
                * AdjoinRoot.root (negacyclicMod q n) ^ j) := by
              rw [pow_add]
              ring

theorem toAR_addInplace {q n : ℕ} {a b : List (ZMod q)}
    (h : b.length = a.length) :
    toAR q n (addInplace a b) = toAR q n a + toAR q n b := by
  rw [toAR_eq_sum, toAR_eq_sum, toAR_eq_sum, length_addInplace, h,
    ← Finset.sum_add_distrib]
  refine Finset.sum_congr rfl ?_
  intro i _
  rw [getD_addInplace h, map_add, add_mul]

theorem toAR_subInplace {q n : ℕ} {a b : List (ZMod q)}
    (h : b.length = a.length) :
    toAR q n (subInplace a b) = toAR q n a - toAR q n b := by
  rw [toAR_eq_sum, toAR_eq_sum, toAR_eq_sum, length_subInplace, h,
    ← Finset.sum_sub_distrib]
  refine Finset.sum_congr rfl ?_
  intro i _
  rw [getD_subInplace h, map_sub, sub_mul]

/-- The exchange law `(a⋆u)⋆s = (a⋆s)⋆u` in `R_q`: the product appearing
in `decrypt` (via `c0·s`) matches the one built by `encrypt` (via `b·u`). -/
theorem negconv_exchange {q n : ℕ} (hq1 : 1 < q) (hn : 0 < n)
    {a u s : List (ZMod q)} (ha : a.length = n) (hu : u.length = n)
    (hs : s.length = n) :
    negconv q n (negconv q n a u) s = negconv q n (negconv q n a s) u := by
  refine toAR_inj hq1 hn (length_negconv q n _ _) (length_negconv q n _ _) ?_
  rw [toAR_negconv hn (length_negconv q n _ _) hs,
    toAR_negconv hn (length_negconv q n _ _) hu,
    toAR_negconv hn ha hu, toAR_negconv hn ha hs]
  ring

/-! ## Noise bounds

`IsBounded x B` says the modular scalar `x` is the image of an integer of
absolute value at most `B`; this is how the samplers' supports (§4.3) are
expressed: ternary coefficients are bounded by `1`, Gaussian(σ)
coefficients are clamped to `6σ` (spec §4.3: "Tails beyond 6·stdev must
be clamped"), hence bounded by `⌊6 · 3.2⌋ = 19` for the encryption noise. -/

def IsBounded {q : ℕ} (x : ZMod q) (B : ℕ) : Prop :=
  ∃ z : ℤ, x = (z : ZMod q) ∧ z.natAbs ≤ B

/-- A ternary coefficient (spec §4.3: values in `{−1, 0, 1}`, with `−1`
stored as `q − 1`). -/
def IsTernary {q : ℕ} (x : ZMod q) : Prop :=
  x = 0 ∨ x = 1 ∨ x = -1

theorem IsBounded.mono {q : ℕ} {x : ZMod q} {B B' : ℕ}
    (h : IsBounded x B) (hBB : B ≤ B') : IsBounded x B' := by
  obtain ⟨z, hz1, hz2⟩ := h
  exact ⟨z, hz1, le_trans hz2 hBB⟩

theorem IsBounded.add {q : ℕ} {x y : ZMod q} {Bx By : ℕ}
    (hx : IsBounded x Bx) (hy : IsBounded y By) :
    IsBounded (x + y) (Bx + By) := by
  obtain ⟨zx, hx1, hx2⟩ := hx
  obtain ⟨zy, hy1, hy2⟩ := hy
  exact ⟨zx + zy, by rw [hx1, hy1]; push_cast; ring, by omega⟩

theorem IsBounded.sub {q : ℕ} {x y : ZMod q} {Bx By : ℕ}
    (hx : IsBounded x Bx) (hy : IsBounded y By) :
    IsBounded (x - y) (Bx + By) := by
  obtain ⟨zx, hx1, hx2⟩ := hx
  obtain ⟨zy, hy1, hy2⟩ := hy
  exact ⟨zx - zy, by rw [hx1, hy1]; push_cast; ring, by omega⟩

theorem IsTernary.isBounded {q : ℕ} {x : ZMod q} (h : IsTernary x) :
    IsBounded x 1 := by
  rcases h with h | h | h
  · exact ⟨0, by simp [h], by omega⟩
  · exact ⟨1, by simp [h], by omega⟩
  · exact ⟨-1, by simp [h], by omega⟩

theorem isBounded_zero {q : ℕ} (B : ℕ) : IsBounded (0 : ZMod q) B :=
  ⟨0, by simp, by omega⟩

theorem isBounded_sum {q : ℕ} {ι : Type} {s : Finset ι} {f : ι → ZMod q}
    {B : ℕ} (h : ∀ i ∈ s, IsBounded (f i) B) :
    IsBounded (∑ i ∈ s, f i) (s.card * B) := by
  induction s using Finset.cons_induction with
  | empty =>
      simp only [Finset.sum_empty, Finset.card_empty, Nat.zero_mul]
      exact isBounded_zero 0
  | cons a s ha ih =>
      rw [Finset.sum_cons, Finset.card_cons]
      have h1 : IsBounded (f a) B := h a (Finset.mem_cons_self a s)
      have h2 := ih (fun i hi => h i (Finset.mem_cons_of_mem hi))
      exact (h1.add h2).mono (by ring_nf; omega)

/-- Membership-based bound for every `getD` access of a list. -/
theorem isBounded_getD {q : ℕ} {l : List (ZMod q)} {B : ℕ}
    (h : ∀ c ∈ l, IsBounded c B) (i : ℕ) : IsBounded (l.getD i 0) B := by
  by_cases hi : i < l.length
  · rw [List.getD_eq_getElem _ _ hi]
    exact h _ (List.getElem_mem hi)
  · rw [List.getD_eq_default _ _ (by omega)]
    exact isBounded_zero B

/-- Every coefficient of a negacyclic product of coefficient-wise bounded
polynomials is bounded by `n² · Bx · By`. -/
theorem isBounded_negconv {q n : ℕ} {x y : List (ZMod q)} {Bx By : ℕ}
    (hx : ∀ c ∈ x, IsBounded c Bx) (hy : ∀ c ∈ y, IsBounded c By) (k : ℕ) :
    IsBounded ((negconv q n x y).getD k 0) (n * n * (Bx * By)) := by
  by_cases hk : k < n
  · rw [getD_negconv x y hk]
    have hterm : ∀ p ∈ (Finset.range n ×ˢ Finset.range n).filter
        (fun p => (p.1 + p.2) % n = k),
        IsBounded ((-1 : ZMod q) ^ ((p.1 + p.2) / n)
          * x.getD p.1 0 * y.getD p.2 0) (Bx * By) := by
      intro p _
      obtain ⟨zx, hx1, hx2⟩ := isBounded_getD hx p.1
      obtain ⟨zy, hy1, hy2⟩ := isBounded_getD hy p.2
      refine ⟨(-1 : ℤ) ^ ((p.1 + p.2) / n) * zx * zy, ?_, ?_⟩
      · rw [hx1, hy1]; push_cast; ring
      · rw [Int.natAbs_mul, Int.natAbs_mul, Int.natAbs_pow]
        simp only [Int.natAbs_neg, Int.natAbs_one, one_pow, one_mul]
        exact Nat.mul_le_mul hx2 hy2
    have hsum := isBounded_sum hterm
    refine hsum.mono ?_
    have hcard : ((Finset.range n ×ˢ Finset.range n).filter
        (fun p => (p.1 + p.2) % n = k)).card ≤ n * n := by
      calc ((Finset.range n ×ˢ Finset.range n).filter
          (fun p => (p.1 + p.2) % n = k)).card
          ≤ (Finset.range n ×ˢ Finset.range n).card :=
            Finset.card_filter_le _ _
        _ = n * n := by rw [Finset.card_product, Finset.card_range]
    exact Nat.mul_le_mul_right _ hcard
  · rw [List.getD_eq_default _ _ (by rw [length_negconv]; omega)]
    exact isBounded_zero _

/-! ## The rounded-descaling decode lemma

`extractByte` recovers the plaintext byte from `Δ·m + noise` whenever the
noise budget condition holds.  `256·B + 255·(q mod 256) ≤ (q−1)/2`
expresses "noise at most `q/(2t)` up to the floor errors" (spec §4.4.4:
"The constant q/2 rounding term ... tolerat[es] noise up to ±q/(2t)"). -/

theorem extract_core {q : ℕ} (hq1 : 1 < q) {m B : ℕ} {z : ℤ}
    (hm : m < 256) (hz : z.natAbs ≤ B)
    (hbudget : 256 * B + 255 * (q % 256) ≤ (q - 1) / 2)
    {v : ℕ} (hv : (v : ℤ) = ((q / 256 : ℕ) * m + z) % q) :
    (v * 256 + q / 2) / q % 256 = m := by
  have hq0 : (0:ℤ) < q := by omega
  set Δ : ℕ := q / 256 with hΔ
  set r : ℕ := q % 256 with hr
  have hqdr : q = 256 * Δ + r := by omega
  have hr256 : r < 256 := Nat.mod_lt _ (by omega)
  have htΔ : Δ * m ≤ Δ * 255 := Nat.mul_le_mul_left _ (by omega)
  have hrm : r * m ≤ r * 255 := Nat.mul_le_mul_left _ (by omega)
  set A : ℤ := (Δ : ℤ) * m + z with hA
  -- D is the rounding slack: N = 256·(A mod q) + ⌊q/2⌋ = q·(m [+256]) + D
  set D : ℤ := 256 * z - (r : ℤ) * m + (q / 2 : ℕ) with hD
  have hq2 : ((q / 2 : ℕ) : ℤ) = (q : ℤ) / 2 := Int.ofNat_ediv q 2
  have hDlow : 0 ≤ D := by
    have hrm' : ((r : ℤ) * m) = ((r * m : ℕ) : ℤ) := by push_cast; ring
    omega
  have hDhigh : D < q := by
    have hrm' : ((r : ℤ) * m) = ((r * m : ℕ) : ℤ) := by push_cast; ring
    omega
  have hsplit : 256 * A = (q : ℤ) * m + (256 * z - (r : ℤ) * m) := by
    have h256Δ : 256 * (Δ : ℤ) = (q : ℤ) - r := by omega
    calc 256 * A = (256 * (Δ : ℤ)) * m + 256 * z := by rw [hA]; ring
      _ = ((q : ℤ) - r) * m + 256 * z := by rw [h256Δ]
      _ = (q : ℤ) * m + (256 * z - (r : ℤ) * m) := by ring
  have hcast : ((v * 256 + q / 2 : ℕ) : ℤ) = (A % q) * 256 + (q / 2 : ℕ) := by
    push_cast
    rw [hv]
  have hgoal : ((v * 256 + q / 2) / q % 256 : ℕ) = (m : ℕ) := by
    have hdiv : ((v * 256 + q / 2 : ℕ) / q : ℕ) = ((A % q) * 256 + (q / 2 : ℕ)) / q := by
      rw [← hcast, ← Int.ofNat_ediv]
    by_cases hA0 : 0 ≤ A
    · -- A is already reduced: `A % q = A`
      have hAlt : A < q := by
        have htΔ' : (Δ : ℤ) * m ≤ ((Δ * 255 : ℕ) : ℤ) := by
          have : ((Δ * m : ℕ) : ℤ) = (Δ : ℤ) * m := by push_cast; ring
          omega
        omega
      have hmod : A % q = A := Int.emod_eq_of_lt hA0 hAlt
      have hnum : (A % q) * 256 + ((q / 2 : ℕ) : ℤ) = D + (q : ℤ) * m := by
        rw [hmod, hD]
        linear_combination hsplit
      have : ((A % q) * 256 + ((q / 2 : ℕ) : ℤ)) / q = m := by
        rw [hnum, Int.add_mul_ediv_left D (m : ℤ) (by omega),
          Int.ediv_eq_zero_of_lt hDlow hDhigh]
        omega
      omega
    · -- A is negative (possible only when `Δ·m < |z|`); the stored value
      -- wraps to `A + q` and the `mod 256` of the cast absorbs the shift.
      push_neg at hA0
      have hAq : A % q = A + q := by
        have h1 : A % q = (A + q) % q := by
          have := Int.add_mul_emod_self_left (a := A) (b := (q : ℤ)) (c := 1)
          simpa using this.symm
        have h2 : 0 ≤ A + q := by
          have htΔ' : 0 ≤ (Δ : ℤ) * m := by positivity
          omega
        rw [h1, Int.emod_eq_of_lt h2 (by omega)]
      have hnum : (A % q) * 256 + ((q / 2 : ℕ) : ℤ) = D + (q : ℤ) * (m + 256) := by
        rw [hAq, hD]
        linear_combination hsplit
      have : ((A % q) * 256 + ((q / 2 : ℕ) : ℤ)) / q = m + 256 := by
        rw [hnum, Int.add_mul_ediv_left D ((m : ℤ) + 256) (by omega),
          Int.ediv_eq_zero_of_lt hDlow hDhigh]
        omega
      omega
  exact hgoal

/-- Decoding a noisy scaled byte: if `x = m·Δ + ν` with `ν` bounded by the
noise budget, `extractByte` returns `m`. -/
theorem extract_decode {q : ℕ} (hq1 : 1 < q) {m B : ℕ} {x : ZMod q}
    (hm : m < 256) (hx : IsBounded (x - (m : ZMod q) * delta q) B)
    (hbudget : 256 * B + 255 * (q % 256) ≤ (q - 1) / 2) :
    extractByte q x = m := by
  haveI : NeZero q := ⟨by omega⟩
  obtain ⟨z, hz1, hz2⟩ := hx
  have hxeq : x = (((q / 256 : ℕ) * m + z : ℤ) : ZMod q) := by
    have hx' : x = (m : ZMod q) * delta q + (z : ZMod q) := by
      rw [← hz1]; ring
    rw [hx', delta, Int.cast_add, Int.cast_mul, Int.cast_natCast,
      Int.cast_natCast]
    ring
  have hval : ((x.val : ℤ)) = ((q / 256 : ℕ) * m + z) % q := by
    rw [hxeq]
    exact ZMod.val_intCast _
  exact extract_core hq1 hm hz2 hbudget hval

/-- Left distributivity of the negacyclic product over `add_inplace`. -/
theorem negconv_addInplace_left {q n : ℕ} (hq1 : 1 < q) (hn : 0 < n)
    {x y z : List (ZMod q)} (hx : x.length = n) (hy : y.length = n)
    (hz : z.length = n) :
    negconv q n (addInplace x y) z
      = addInplace (negconv q n x z) (negconv q n y z) := by
  refine toAR_inj hq1 hn (length_negconv q n _ _)
    (by rw [length_addInplace, length_negconv]) ?_
  rw [toAR_negconv hn (by rw [length_addInplace, hx]) hz,
    toAR_addInplace (by rw [hy, hx]),
    toAR_addInplace (by rw [length_negconv, length_negconv]),
    toAR_negconv hn hx hz, toAR_negconv hn hy hz, add_mul]

/-! ## Phase characterization of the FV operations -/

/-- The accumulated noise of a (keypair-based) public-key encryption:
`e⋆u + e2 − e1⋆s`.  (Abbreviation used to state the phase lemmas.) -/
def encNoise (q n : ℕ) (s e u e1 e2 : List (ZMod q)) : List (ZMod q) :=
  subInplace (addInplace (negconv q n e u) e2) (negconv q n e1 s)

theorem length_encNoise (q n : ℕ) (s e u e1 e2 : List (ZMod q)) :
    (encNoise q n s e u e1 e2).length = n := by
  rw [encNoise, length_subInplace, length_addInplace, length_negconv]

theorem decrypt_eq_phase_map (q n : ℕ) (ct : Ct q) (sk : List (ZMod q)) :
    decrypt q n ct sk = (phase q n ct sk).map (extractByte q) := rfl

/-- Phase of an encryption of zero under a `generate_keypair` public key:
it is exactly the accumulated noise. -/
theorem getD_phase_encryptZero {q n : ℕ} (hq1 : 1 < q) (hn : 0 < n)
    {s a e u e1 e2 : List (ZMod q)}
    (hs : s.length = n) (ha : a.length = n) (he : e.length = n)
    (hu : u.length = n) (he1 : e1.length = n) (he2 : e2.length = n) (k : ℕ) :
    (phase q n (encryptZero q n (generateKeypair q n s a e).1 u e1 e2) s).getD k 0
      = (encNoise q n s e u e1 e2).getD k 0 := by
  have hb : negconv q n (addInplace (negconv q n a s) e) u
      = addInplace (negconv q n (negconv q n a s) u) (negconv q n e u) :=
    negconv_addInplace_left hq1 hn (length_negconv q n a s) he hu
  have hexch : negconv q n (negconv q n a s) u
      = negconv q n (negconv q n a u) s :=
    (negconv_exchange hq1 hn ha hu hs).symm
  have hc0 : negconv q n (addInplace (negconv q n a u) e1) s
      = addInplace (negconv q n (negconv q n a u) s) (negconv q n e1 s) :=
    negconv_addInplace_left hq1 hn (length_negconv q n a u) he1 hs
  simp only [phase, encryptZero, generateKeypair, generateKey, encryptZeroSk,
    encNoise]
  rw [hb, hexch, hc0]
  rw [getD_subInplace (by simp [length_addInplace, length_negconv]),
    getD_addInplace (by simp [length_addInplace, length_negconv, he2]),
    getD_addInplace (by simp [length_negconv]),
    getD_addInplace (by simp [length_negconv]),
    getD_subInplace (by simp [length_addInplace, length_negconv]),
    getD_addInplace (by simp [length_negconv, he2])]
  ring

/-- Phase of a full public-key encryption: `Δ·m` plus the noise. -/
theorem getD_phase_encrypt {q n : ℕ} (hq1 : 1 < q) (hn : 0 < n)
    {s a e u e1 e2 : List (ZMod q)} {pt : List ℕ}
    (hs : s.length = n) (ha : a.length = n) (he : e.length = n)
    (hu : u.length = n) (he1 : e1.length = n) (he2 : e2.length = n)
    (hpt : pt.length = n) (k : ℕ) :
    (phase q n (encrypt q n pt (generateKeypair q n s a e).1 u e1 e2) s).getD k 0
      = (pt.getD k 0 : ZMod q) * delta q
        + (encNoise q n s e u e1 e2).getD k 0 := by
  have hstep := getD_phase_encryptZero hq1 hn hs ha he hu he1 he2 k
  simp only [phase, encrypt, encryptZero, generateKeypair, generateKey,
    encryptZeroSk, encNoise] at hstep ⊢
  rw [getD_subInplace (by simp [length_encryptInject, length_addInplace,
      length_negconv]),
    getD_encryptInject (by simp [length_addInplace, length_negconv, hpt])]
  rw [getD_subInplace (by simp [length_addInplace, length_negconv])] at hstep
  linear_combination hstep

/-- Phase is additive across `add_inplace` of two well-sized ciphertexts. -/
theorem getD_phase_addCt {q n : ℕ} (hq1 : 1 < q) (hn : 0 < n)
    {ct1 ct2 : Ct q} {s : List (ZMod q)}
    (h11 : ct1.1.length = n) (h12 : ct1.2.length = n)
    (h21 : ct2.1.length = n) (h22 : ct2.2.length = n)
    (hs : s.length = n) (k : ℕ) :
    (phase q n (addCt ct1 ct2) s).getD k 0
      = (phase q n ct1 s).getD k 0 + (phase q n ct2 s).getD k 0 := by
  have hdist : negconv q n (addInplace ct1.1 ct2.1) s
      = addInplace (negconv q n ct1.1 s) (negconv q n ct2.1 s) :=
    negconv_addInplace_left hq1 hn h11 (by omega) hs
  simp only [phase, addCt]
  rw [hdist]
  rw [getD_subInplace (by simp [length_addInplace, length_negconv, h12]),
    getD_addInplace (by omega),
    getD_addInplace (by simp [length_negconv]),
    getD_subInplace (by simp [length_negconv, h12]),
    getD_subInplace (by simp [length_negconv, h22])]
  ring

/-- Bound on the accumulated encryption noise: with ternary `s`, `u` and
`6σ`-clamped Gaussians (`⌊6·3.2⌋ = 19`), every coefficient of
`e⋆u + e2 − e1⋆s` is bounded by `2·19·n² + 19`. -/
theorem isBounded_encNoise {q n : ℕ} {s e u e1 e2 : List (ZMod q)}
    (hTs : ∀ c ∈ s, IsTernary c) (hTu : ∀ c ∈ u, IsTernary c)
    (hGe : ∀ c ∈ e, IsBounded c 19) (hGe1 : ∀ c ∈ e1, IsBounded c 19)
    (hGe2 : ∀ c ∈ e2, IsBounded c 19) (he2 : e2.length = n) (k : ℕ) :
    IsBounded ((encNoise q n s e u e1 e2).getD k 0) (2 * (n * n * 19) + 19) := by
  have hTu' : ∀ c ∈ u, IsBounded c 1 := fun c hc => (hTu c hc).isBounded
  have hTs' : ∀ c ∈ s, IsBounded c 1 := fun c hc => (hTs c hc).isBounded
  rw [encNoise,
    getD_subInplace (by simp [length_negconv, length_addInplace]),
    getD_addInplace (by rw [length_negconv]; exact he2)]
  have h1 := isBounded_negconv (n := n) hGe hTu' k
  have h2 := isBounded_getD hGe2 k
  have h3 := isBounded_negconv (n := n) hGe1 hTs' k
  exact ((h1.add h2).sub h3).mono (le_of_eq (by ring))

/-- **C1.** For every plaintext `m` of length `n` with bytes in `[0,256)`,
if `(pk, sk)` is produced by `generate_keypair` and `ct = encrypt(m, pk)`,
then `decrypt(ct, sk) = m`.  The sampler outputs (`s`, `u` ternary; `e`,
`e1`, `e2` Gaussian, clamped at `6σ = 19`) are universally quantified over
their supports, and the parameters must satisfy the noise budget of
§4.4.4 (spec §7: a ciphertext whose noise overflows decrypts silently to
a wrong plaintext, so correctness cannot be unconditional). -/
theorem C1_decrypt_encrypt (q n : ℕ) (hq1 : 1 < q) (hn : 0 < n)
    (s a e u e1 e2 : List (ZMod q)) (pt : List ℕ)
    (hs : s.length = n) (ha : a.length = n) (he : e.length = n)
    (hu : u.length = n) (he1 : e1.length = n) (he2 : e2.length = n)
    (hpt : pt.length = n) (hptb : ∀ b ∈ pt, b < 256)
    (hTs : ∀ c ∈ s, IsTernary c) (hTu : ∀ c ∈ u, IsTernary c)
    (hGe : ∀ c ∈ e, IsBounded c 19) (hGe1 : ∀ c ∈ e1, IsBounded c 19)
    (hGe2 : ∀ c ∈ e2, IsBounded c 19)
    (hbudget : 256 * (2 * (n * n * 19) + 19) + 255 * (q % 256) ≤ (q - 1) / 2) :
    decrypt q n (encrypt q n pt (generateKeypair q n s a e).1 u e1 e2)
      (generateKeypair q n s a e).2 = pt := by
  rw [decrypt_eq_phase_map]
  have hlen : (phase q n (encrypt q n pt (generateKeypair q n s a e).1 u e1 e2)
      (generateKeypair q n s a e).2).length = n := by
    simp [phase, encrypt, encryptZero, generateKeypair, generateKey,
      encryptZeroSk, length_subInplace, length_encryptInject,
      length_addInplace, length_negconv]
  refine List.ext_getElem (by simp [hlen, hpt]) ?_
  intro k h1 h2
  rw [List.getElem_map]
  have hk : k < n := by
    rw [List.length_map, hlen] at h1
    exact h1
  have hgetD : (phase q n (encrypt q n pt (generateKeypair q n s a e).1 u e1 e2)
        (generateKeypair q n s a e).2)[k]
      = (phase q n (encrypt q n pt (generateKeypair q n s a e).1 u e1 e2)
        (generateKeypair q n s a e).2).getD k 0 := by
    rw [List.getD_eq_getElem _ _ (by rw [hlen]; exact hk)]
  rw [hgetD]
  have hph := getD_phase_encrypt hq1 hn hs ha he hu he1 he2 hpt k
  rw [show (generateKeypair q n s a e).2 = s from rfl] at *
  refine extract_decode hq1 (hptb _ (List.getElem_mem h2)) ?_ hbudget
  refine Eq.mp ?_ (isBounded_encNoise hTs hTu hGe hGe1 hGe2 he2 k)
  congr 1
  rw [hph, List.getD_eq_getElem _ _ h2]
  ring

/-- Witness for C1: a concrete instantiation (`n = 1`, `q = 65537`,
all-zero sampler outputs, plaintext `[5]`). -/
theorem C1_witness :
    decrypt 65537 1 (encrypt 65537 1 [5] (generateKeypair 65537 1 [0] [0] [0]).1
        [0] [0] [0]) (generateKeypair 65537 1 [0] [0] [0]).2 = [5] :=
  C1_decrypt_encrypt 65537 1 (by norm_num) (by norm_num)
    [0] [0] [0] [0] [0] [0] [5] rfl rfl rfl rfl rfl rfl rfl
    (by intro b hb; rw [List.mem_singleton] at hb; omega)
    (by intro c hc; rw [List.mem_singleton] at hc; subst hc; exact Or.inl rfl)
    (by intro c hc; rw [List.mem_singleton] at hc; subst hc; exact Or.inl rfl)
    (by intro c hc; rw [List.mem_singleton] at hc; subst hc; exact isBounded_zero 19)
    (by intro c hc; rw [List.mem_singleton] at hc; subst hc; exact isBounded_zero 19)
    (by intro c hc; rw [List.mem_singleton] at hc; subst hc; exact isBounded_zero 19)
    (by norm_num)

theorem length_encrypt_fst (q n : ℕ) (pt : List ℕ) (pk : Ct q)
    (u e1 e2 : List (ZMod q)) : (encrypt q n pt pk u e1 e2).1.length = n := by
  simp [encrypt, encryptZero, length_addInplace, length_negconv]

theorem length_encrypt_snd (q n : ℕ) (pt : List ℕ) (pk : Ct q)
    (u e1 e2 : List (ZMod q)) : (encrypt q n pt pk u e1 e2).2.length = n := by
  simp [encrypt, encryptZero, length_encryptInject, length_addInplace,
    length_negconv]

theorem length_phase (q n : ℕ) (ct : Ct q) (sk : List (ZMod q)) :
    (phase q n ct sk).length = ct.2.length := by
  simp [phase, length_subInplace]

set_option maxHeartbeats 1000000 in
/-- **C2.** For plaintexts `m1`, `m2` with byte-wise sums below 256 and a
`generate_keypair` keypair, decrypting `add_inplace(encrypt(m1), encrypt(m2))`
yields the byte-wise sum.  Same sampler-support and noise-budget
hypotheses as C1 (the budget doubles because the noises add). -/
theorem C2_add_homomorphic (q n : ℕ) (hq1 : 1 < q) (hn : 0 < n)
    (s a e u1 e11 e21 u2 e12 e22 : List (ZMod q)) (pt1 pt2 : List ℕ)
    (hs : s.length = n) (ha : a.length = n) (he : e.length = n)
    (hu1 : u1.length = n) (he11 : e11.length = n) (he21 : e21.length = n)
    (hu2 : u2.length = n) (he12 : e12.length = n) (he22 : e22.length = n)
    (hpt1 : pt1.length = n) (hpt2 : pt2.length = n)
    (hsum : ∀ k, pt1.getD k 0 + pt2.getD k 0 < 256)
    (hTs : ∀ c ∈ s, IsTernary c)
    (hTu1 : ∀ c ∈ u1, IsTernary c) (hTu2 : ∀ c ∈ u2, IsTernary c)
    (hGe : ∀ c ∈ e, IsBounded c 19)
    (hGe11 : ∀ c ∈ e11, IsBounded c 19) (hGe21 : ∀ c ∈ e21, IsBounded c 19)
    (hGe12 : ∀ c ∈ e12, IsBounded c 19) (hGe22 : ∀ c ∈ e22, IsBounded c 19)
    (hbudget : 256 * (2 * (2 * (n * n * 19) + 19)) + 255 * (q % 256)
      ≤ (q - 1) / 2) :
    decrypt q n
      (addCt (encrypt q n pt1 (generateKeypair q n s a e).1 u1 e11 e21)
        (encrypt q n pt2 (generateKeypair q n s a e).1 u2 e12 e22))
      (generateKeypair q n s a e).2
      = List.zipWith (· + ·) pt1 pt2 := by
  rw [decrypt_eq_phase_map, show (generateKeypair q n s a e).2 = s from rfl]
  have hlen : (phase q n
      (addCt (encrypt q n pt1 (generateKeypair q n s a e).1 u1 e11 e21)
        (encrypt q n pt2 (generateKeypair q n s a e).1 u2 e12 e22))
      s).length = n := by
    rw [length_phase]
    simp [addCt, length_addInplace, length_encrypt_snd]
  refine List.ext_getElem (by rw [List.length_map, hlen, List.length_zipWith]; omega) ?_
  intro k h1 h2
  rw [List.getElem_map]
  have hk : k < n := by
    rw [List.length_map, hlen] at h1
    exact h1
  have hgetD : ∀ (l : List (ZMod q)) (h : k < l.length), l[k] = l.getD k 0 :=
    fun l h => (List.getD_eq_getElem _ _ h).symm
  rw [hgetD _ (by rw [hlen]; exact hk)]
  have hadd := getD_phase_addCt hq1 hn
    (length_encrypt_fst q n pt1 (generateKeypair q n s a e).1 u1 e11 e21)
    (length_encrypt_snd q n pt1 (generateKeypair q n s a e).1 u1 e11 e21)
    (length_encrypt_fst q n pt2 (generateKeypair q n s a e).1 u2 e12 e22)
    (length_encrypt_snd q n pt2 (generateKeypair q n s a e).1 u2 e12 e22) hs k
  have hph1 := getD_phase_encrypt hq1 hn hs ha he hu1 he11 he21 hpt1 k
  have hph2 := getD_phase_encrypt hq1 hn hs ha he hu2 he12 he22 hpt2 k
  have hn1 := isBounded_encNoise hTs hTu1 hGe hGe11 hGe21 he21 k
  have hn2 := isBounded_encNoise hTs hTu2 hGe hGe12 hGe22 he22 k
  have hsum_noise : IsBounded
      ((encNoise q n s e u1 e11 e21).getD k 0
        + (encNoise q n s e u2 e12 e22).getD k 0)
      (2 * (2 * (n * n * 19) + 19)) :=
    (hn1.add hn2).mono (le_of_eq (by ring))
  have hx : IsBounded
      ((phase q n
        (addCt (encrypt q n pt1 (generateKeypair q n s a e).1 u1 e11 e21)
          (encrypt q n pt2 (generateKeypair q n s a e).1 u2 e12 e22))
        s).getD k 0
        - ((pt1.getD k 0 + pt2.getD k 0 : ℕ) : ZMod q) * delta q)
      (2 * (2 * (n * n * 19) + 19)) := by
    refine Eq.mp ?_ hsum_noise
    congr 1
    rw [hadd, hph1, hph2]
    push_cast
    ring
  have hdec := extract_decode hq1 (hsum k) hx hbudget
  have hk1 : k < pt1.length := by omega
  have hk2 : k < pt2.length := by omega
  rw [hdec, List.getElem_zipWith, List.getD_eq_getElem pt1 0 hk1,
    List.getD_eq_getElem pt2 0 hk2]

/-- Witness for C2 at `n = 1`, `q = 65537`, zero noise, `m1 = [3]`,
`m2 = [4]`. -/
theorem C2_witness :
    decrypt 65537 1
      (addCt (encrypt 65537 1 [3] (generateKeypair 65537 1 [0] [0] [0]).1
          [0] [0] [0])
        (encrypt 65537 1 [4] (generateKeypair 65537 1 [0] [0] [0]).1
          [0] [0] [0]))
      (generateKeypair 65537 1 [0] [0] [0]).2
      = List.zipWith (· + ·) [3] [4] :=
  C2_add_homomorphic 65537 1 (by norm_num) (by norm_num)
    [0] [0] [0] [0] [0] [0] [0] [0] [0] [3] [4]
    rfl rfl rfl rfl rfl rfl rfl rfl rfl rfl rfl
    (by intro k; match k with
        | 0 => norm_num
        | Nat.succ k => simp [List.getD])
    (by intro c hc; rw [List.mem_singleton] at hc; subst hc; exact Or.inl rfl)
    (by intro c hc; rw [List.mem_singleton] at hc; subst hc; exact Or.inl rfl)
    (by intro c hc; rw [List.mem_singleton] at hc; subst hc; exact Or.inl rfl)
    (by intro c hc; rw [List.mem_singleton] at hc; subst hc; exact isBounded_zero 19)
    (by intro c hc; rw [List.mem_singleton] at hc; subst hc; exact isBounded_zero 19)
    (by intro c hc; rw [List.mem_singleton] at hc; subst hc; exact isBounded_zero 19)
    (by intro c hc; rw [List.mem_singleton] at hc; subst hc; exact isBounded_zero 19)
    (by intro c hc; rw [List.mem_singleton] at hc; subst hc; exact isBounded_zero 19)
    (by norm_num)

/-- Phase of a rerandomized ciphertext: the original phase, plus the phase
of the zero-encryption mask, plus the flooding noise. -/
theorem getD_phase_rerandomize {q n : ℕ} (hq1 : 1 < q) (hn : 0 < n)
    (pk : Ct q) (u e1 e2 : List (ZMod q)) {ct : Ct q} {s ef : List (ZMod q)}
    (h11 : ct.1.length = n) (h12 : ct.2.length = n)
    (hs : s.length = n) (hef : ef.length = n) (k : ℕ) :
    (phase q n (rerandomize q n ct pk u e1 e2 ef) s).getD k 0
      = (phase q n ct s).getD k 0
        + (phase q n (encryptZero q n pk u e1 e2) s).getD k 0
        + ef.getD k 0 := by
  have hm1 : (encryptZero q n pk u e1 e2).1.length = n := by
    simp [encryptZero, length_addInplace, length_negconv]
  have hm2 : (encryptZero q n pk u e1 e2).2.length = n := by
    simp [encryptZero, length_addInplace, length_negconv]
  have hdist := negconv_addInplace_left hq1 hn h11 hm1 hs
  simp only [phase, rerandomize, addCt]
  rw [hdist]
  rw [getD_subInplace (by simp [length_addInplace, length_negconv, h12]),
    getD_addInplace (by simp [length_addInplace, hef, h12]),
    getD_addInplace (by omega),
    getD_addInplace (by simp [length_negconv]),
    getD_subInplace (by simp [length_negconv, h12]),
    getD_subInplace (by simp [length_negconv, hm2])]
  ring

/-- **C5.** `rerandomize(ct, pk)` adds a public-key encryption of zero
component-wise and then adds the flooding polynomial to `c1` only (first
two conjuncts: `c0` receives nothing but the zero-encryption mask), and
the result still decrypts to the original plaintext (third conjunct),
under the sampler supports and the enlarged noise budget (`Bf` bounds the
flooding polynomial's coefficients). -/
theorem C5_rerandomize_preserves (q n : ℕ) (hq1 : 1 < q) (hn : 0 < n)
    (s a e u e1 e2 u' e1' e2' ef : List (ZMod q)) (pt : List ℕ) (Bf : ℕ)
    (hs : s.length = n) (ha : a.length = n) (he : e.length = n)
    (hu : u.length = n) (he1 : e1.length = n) (he2 : e2.length = n)
    (hu' : u'.length = n) (he1' : e1'.length = n) (he2' : e2'.length = n)
    (hef : ef.length = n) (hpt : pt.length = n) (hptb : ∀ b ∈ pt, b < 256)
    (hTs : ∀ c ∈ s, IsTernary c) (hTu : ∀ c ∈ u, IsTernary c)
    (hTu' : ∀ c ∈ u', IsTernary c)
    (hGe : ∀ c ∈ e, IsBounded c 19)
    (hGe1 : ∀ c ∈ e1, IsBounded c 19) (hGe2 : ∀ c ∈ e2, IsBounded c 19)
    (hGe1' : ∀ c ∈ e1', IsBounded c 19) (hGe2' : ∀ c ∈ e2', IsBounded c 19)
    (hGef : ∀ c ∈ ef, IsBounded c Bf)
    (hbudget : 256 * (2 * (2 * (n * n * 19) + 19) + Bf) + 255 * (q % 256)
      ≤ (q - 1) / 2) :
    (rerandomize q n (encrypt q n pt (generateKeypair q n s a e).1 u e1 e2)
        (generateKeypair q n s a e).1 u' e1' e2' ef).1
      = addInplace (encrypt q n pt (generateKeypair q n s a e).1 u e1 e2).1
          (encryptZero q n (generateKeypair q n s a e).1 u' e1' e2').1
    ∧ (rerandomize q n (encrypt q n pt (generateKeypair q n s a e).1 u e1 e2)
        (generateKeypair q n s a e).1 u' e1' e2' ef).2
      = addInplace
          (addInplace (encrypt q n pt (generateKeypair q n s a e).1 u e1 e2).2
            (encryptZero q n (generateKeypair q n s a e).1 u' e1' e2').2)
          ef
    ∧ decrypt q n
        (rerandomize q n (encrypt q n pt (generateKeypair q n s a e).1 u e1 e2)
          (generateKeypair q n s a e).1 u' e1' e2' ef)
        (generateKeypair q n s a e).2 = pt := by
  refine ⟨rfl, rfl, ?_⟩
  rw [decrypt_eq_phase_map, show (generateKeypair q n s a e).2 = s from rfl]
  have hlen : (phase q n
      (rerandomize q n (encrypt q n pt (generateKeypair q n s a e).1 u e1 e2)
        (generateKeypair q n s a e).1 u' e1' e2' ef) s).length = n := by
    rw [length_phase]
    simp [rerandomize, addCt, length_addInplace, length_encrypt_snd]
  refine List.ext_getElem (by rw [List.length_map, hlen]; omega) ?_
  intro k h1 h2
  rw [List.getElem_map]
  have hk : k < n := by
    rw [List.length_map, hlen] at h1
    exact h1
  have hgetD : ∀ (l : List (ZMod q)) (h : k < l.length), l[k] = l.getD k 0 :=
    fun l h => (List.getD_eq_getElem _ _ h).symm
  rw [hgetD _ (by rw [hlen]; exact hk)]
  have hrr := getD_phase_rerandomize hq1 hn
    (generateKeypair q n s a e).1 u' e1' e2'
    (length_encrypt_fst q n pt (generateKeypair q n s a e).1 u e1 e2)
    (length_encrypt_snd q n pt (generateKeypair q n s a e).1 u e1 e2)
    hs hef k
  have hph := getD_phase_encrypt hq1 hn hs ha he hu he1 he2 hpt k
  have hmz := getD_phase_encryptZero hq1 hn hs ha he hu' he1' he2' k
  have hn1 := isBounded_encNoise hTs hTu hGe hGe1 hGe2 he2 k
  have hn2 := isBounded_encNoise hTs hTu' hGe hGe1' hGe2' he2' k
  have hn3 := isBounded_getD hGef k
  have hsum_noise : IsBounded
      ((encNoise q n s e u e1 e2).getD k 0
        + (encNoise q n s e u' e1' e2').getD k 0 + ef.getD k 0)
      (2 * (2 * (n * n * 19) + 19) + Bf) :=
    ((hn1.add hn2).add hn3).mono (le_of_eq (by ring))
  have hx : IsBounded
      ((phase q n
        (rerandomize q n (encrypt q n pt (generateKeypair q n s a e).1 u e1 e2)
          (generateKeypair q n s a e).1 u' e1' e2' ef) s).getD k 0
        - (pt.getD k 0 : ZMod q) * delta q)
      (2 * (2 * (n * n * 19) + 19) + Bf) := by
    refine Eq.mp ?_ hsum_noise
    congr 1
    rw [hrr, hph, hmz]
    ring
  have hmlt : pt.getD k 0 < 256 := by
    rw [List.getD_eq_getElem pt 0 (by omega)]
    exact hptb _ (List.getElem_mem (by omega))
  have hdec := extract_decode hq1 hmlt hx hbudget
  rw [hdec, List.getD_eq_getElem pt 0 (by omega)]

/-- Witness for C5 at `n = 1` with the default 54-bit prime modulus, zero
sampler outputs and flooding bound `Bf = 6·2^40` (the `6σ` clamp for
`σ_flood = 2^40`). -/
theorem C5_witness :
    (rerandomize 18014398492704769 1
        (encrypt 18014398492704769 1 [7]
          (generateKeypair 18014398492704769 1 [0] [0] [0]).1 [0] [0] [0])
        (generateKeypair 18014398492704769 1 [0] [0] [0]).1 [0] [0] [0] [0]).1
      = addInplace
          (encrypt 18014398492704769 1 [7]
            (generateKeypair 18014398492704769 1 [0] [0] [0]).1 [0] [0] [0]).1
          (encryptZero 18014398492704769 1
            (generateKeypair 18014398492704769 1 [0] [0] [0]).1 [0] [0] [0]).1
    ∧ (rerandomize 18014398492704769 1
        (encrypt 18014398492704769 1 [7]
          (generateKeypair 18014398492704769 1 [0] [0] [0]).1 [0] [0] [0])
        (generateKeypair 18014398492704769 1 [0] [0] [0]).1 [0] [0] [0] [0]).2
      = addInplace
          (addInplace
            (encrypt 18014398492704769 1 [7]
              (generateKeypair 18014398492704769 1 [0] [0] [0]).1 [0] [0] [0]).2
            (encryptZero 18014398492704769 1
              (generateKeypair 18014398492704769 1 [0] [0] [0]).1 [0] [0] [0]).2)
          [0]
    ∧ decrypt 18014398492704769 1
        (rerandomize 18014398492704769 1
          (encrypt 18014398492704769 1 [7]
            (generateKeypair 18014398492704769 1 [0] [0] [0]).1 [0] [0] [0])
          (generateKeypair 18014398492704769 1 [0] [0] [0]).1 [0] [0] [0] [0])
        (generateKeypair 18014398492704769 1 [0] [0] [0]).2 = [7] :=
  C5_rerandomize_preserves 18014398492704769 1 (by norm_num) (by norm_num)
    [0] [0] [0] [0] [0] [0] [0] [0] [0] [0] [7] 6597069766656
    rfl rfl rfl rfl rfl rfl rfl rfl rfl rfl rfl
    (by intro b hb; rw [List.mem_singleton] at hb; omega)
    (by intro c hc; rw [List.mem_singleton] at hc; subst hc; exact Or.inl rfl)
    (by intro c hc; rw [List.mem_singleton] at hc; subst hc; exact Or.inl rfl)
    (by intro c hc; rw [List.mem_singleton] at hc; subst hc; exact Or.inl rfl)
    (by intro c hc; rw [List.mem_singleton] at hc; subst hc; exact isBounded_zero 19)
    (by intro c hc; rw [List.mem_singleton] at hc; subst hc; exact isBounded_zero 19)
    (by intro c hc; rw [List.mem_singleton] at hc; subst hc; exact isBounded_zero 19)
    (by intro c hc; rw [List.mem_singleton] at hc; subst hc; exact isBounded_zero 19)
    (by intro c hc; rw [List.mem_singleton] at hc; subst hc; exact isBounded_zero 19)
    (by intro c hc; rw [List.mem_singleton] at hc; subst hc;
        exact isBounded_zero 6597069766656)
    (by norm_num)

/-- **C3.** `decrypt` computes `phase = ct.1 − ct.0·s` and maps every
phase coefficient `x` to `⌊(256·x + ⌊q/2⌋)/q⌋ mod 256` (the `mod 256`
being the `u8` cast), producing one byte per coefficient — a byte vector
of length `n` (with every entry below 256). -/
theorem C3_decrypt_structure (q n : ℕ) (ct : Ct q) (sk : List (ZMod q))
    (h2 : ct.2.length = n) :
    (decrypt q n ct sk).length = n
    ∧ (∀ k, k < n → (decrypt q n ct sk).getD k 0
        = (256 * ((subInplace ct.2 (negconv q n ct.1 sk)).getD k 0).val
            + q / 2) / q % 256)
    ∧ (∀ b ∈ decrypt q n ct sk, b < 256) := by
  refine ⟨?_, ?_, ?_⟩
  · simp [decrypt, length_subInplace, h2]
  · intro k hk
    have hlen : k < (subInplace ct.2 (negconv q n ct.1 sk)).length := by
      rw [length_subInplace]
      omega
    rw [decrypt, List.getD_eq_getElem _ _ (by simpa using hlen),
      List.getElem_map, extractByte, qdivtwo,
      List.getD_eq_getElem _ _ hlen, Nat.mul_comm]
  · intro b hb
    obtain ⟨x, _, hx⟩ := List.mem_map.mp hb
    rw [← hx, extractByte]
    exact Nat.mod_lt _ (by omega)

/-- Witness for C3 at `q = 17`, `n = 2`. -/
theorem C3_witness :
    (decrypt 17 2 (([1, 2], [3, 4]) : Ct 17) [1, 0]).length = 2
    ∧ (∀ k, k < 2 → (decrypt 17 2 (([1, 2], [3, 4]) : Ct 17) [1, 0]).getD k 0
        = (256 * ((subInplace ([3, 4] : List (ZMod 17))
            (negconv 17 2 [1, 2] [1, 0])).getD k 0).val + 17 / 2) / 17 % 256)
    ∧ (∀ b ∈ decrypt 17 2 (([1, 2], [3, 4]) : Ct 17) [1, 0], b < 256) :=
  C3_decrypt_structure 17 2 (([1, 2], [3, 4]) : Ct 17) [1, 0] rfl

/-- **C4.** `add_plain_inplace(ct, m)` adds `Δ·m[i]` into `ct.c1[i]`
(modulo `q`) for every `i < n` and leaves `ct.c0` untouched. -/
theorem C4_add_plain_effect (q n : ℕ) (ct : Ct q) (pt : List ℕ)
    (h2 : ct.2.length = n) (hpt : pt.length = n) :
    (addPlain q ct pt).1 = ct.1
    ∧ (addPlain q ct pt).2.length = n
    ∧ ∀ k, k < n → (addPlain q ct pt).2.getD k 0
        = ct.2.getD k 0 + (pt.getD k 0 : ZMod q) * delta q := by
  refine ⟨rfl, ?_, ?_⟩
  · rw [show (addPlain q ct pt).2 = addPlainLoop q ct.2 pt from rfl,
      length_addPlainLoop, h2]
  · intro k _
    rw [show (addPlain q ct pt).2 = addPlainLoop q ct.2 pt from rfl,
      addPlainLoop_eq_encryptInject]
    exact getD_encryptInject (by omega) k

/-- Witness for C4 at `q = 65537`, `n = 2` (`Δ = 256`). -/
theorem C4_witness :
    (addPlain 65537 (([1, 2], [3, 4]) : Ct 65537) [7, 9]).1 = [1, 2]
    ∧ (addPlain 65537 (([1, 2], [3, 4]) : Ct 65537) [7, 9]).2.length = 2
    ∧ ∀ k, k < 2 → (addPlain 65537 (([1, 2], [3, 4]) : Ct 65537) [7, 9]).2.getD k 0
        = (([3, 4] : List (ZMod 65537)).getD k 0)
          + (([7, 9] : List ℕ).getD k 0 : ZMod 65537) * delta 65537 :=
  C4_add_plain_effect 65537 2 (([1, 2], [3, 4]) : Ct 65537) [7, 9] rfl rfl

/-- **C10.** `encrypt` factors through `encrypt_zero` followed by
`add_plain_inplace`: with the same sampler outputs, both code paths apply
the identical per-coefficient update to `c1`. -/
theorem C10_encrypt_refines (q n : ℕ) (pt : List ℕ) (pk : Ct q)
    (u e1 e2 : List (ZMod q)) :
    encrypt q n pt pk u e1 e2 = addPlain q (encryptZero q n pk u e1 e2) pt := rfl

/-! ## Length-mismatch behaviour of the plaintext loops (for C8) -/

theorem addPlainLoop_nil_right (q : ℕ) (c1 : List (ZMod q)) :
    addPlainLoop q c1 [] = c1 := by
  simp [addPlainLoop]

theorem addPlainLoop_nil_left (q : ℕ) (pt : List ℕ) :
    addPlainLoop q [] pt = [] := by
  simp [addPlainLoop]

theorem addPlainLoop_cons (q : ℕ) (x : ZMod q) (c1 : List (ZMod q))
    (y : ℕ) (pt : List ℕ) :
    addPlainLoop q (x :: c1) (y :: pt)
      = (x + (y : ZMod q) * delta q) :: addPlainLoop q c1 pt := by
  simp [addPlainLoop]

/-- Beyond the plaintext's length the loop leaves `c1` unchanged: the
`zip` silently truncates. -/
theorem getD_addPlainLoop_ge (q : ℕ) (c1 : List (ZMod q)) (pt : List ℕ)
    (k : ℕ) (hk : pt.length ≤ k) :
    (addPlainLoop q c1 pt).getD k 0 = c1.getD k 0 := by
  induction c1 generalizing pt k with
  | nil => rw [addPlainLoop_nil_left]
  | cons x c1 ih =>
      match pt, k with
      | [], k => rw [addPlainLoop_nil_right]
      | y :: pt, 0 => simp at hk
      | y :: pt, Nat.succ k =>
          rw [addPlainLoop_cons]
          simp only [List.getD_cons_succ]
          exact ih pt k (by simpa using hk)

/-- Within both lengths the loop performs the `Δ·m` update. -/
theorem getD_addPlainLoop_lt (q : ℕ) (c1 : List (ZMod q)) (pt : List ℕ)
    (k : ℕ) (hk1 : k < pt.length) (hk2 : k < c1.length) :
    (addPlainLoop q c1 pt).getD k 0
      = c1.getD k 0 + (pt.getD k 0 : ZMod q) * delta q := by
  induction c1 generalizing pt k with
  | nil => simp at hk2
  | cons x c1 ih =>
      match pt, k with
      | [], k => simp at hk1
      | y :: pt, 0 => rw [addPlainLoop_cons]; simp
      | y :: pt, Nat.succ k =>
          rw [addPlainLoop_cons]
          simp only [List.getD_cons_succ]
          exact ih pt k (by simpa using hk1) (by simpa using hk2)

/-- Counterexample to **C8** ("shape mismatch fails fast at the call
site"): with `n = 2` and a length-1 plaintext, both `add_plain_inplace`
and `encrypt` return normally, silently processing only the first
coefficient (`Δ = ⌊65537/256⌋ = 256`, so `3 + 7·256 = 1795` while the
second coefficient `4` is untouched). -/
theorem C8_counterexample :
    addPlain 65537 (([1, 2], [3, 4]) : Ct 65537) [7]
      = (([1, 2], [1795, 4]) : Ct 65537)
    ∧ encrypt 65537 2 [7] (([1, 0], [0, 1]) : Ct 65537) [1, 0] [0, 0] [0, 0]
      = (([1, 0], [1792, 1]) : Ct 65537) := by
  constructor
  · rfl
  · decide

/-- **C8 (amended).** No shape check exists: when the plaintext length
differs from the ciphertext size, `add_plain_inplace` (and the identical
injection loop of `encrypt`, cf. its factoring through `add_plain_inplace`)
returns normally, updates exactly the first `min(|pt|, |c1|)` coefficients
and leaves the rest of `c1` (and all of `c0`) unchanged. -/
theorem C8_amended_silent_truncation (q : ℕ) (ct : Ct q) (pt : List ℕ)
    (k j : ℕ) (hk : pt.length ≤ k) (hj1 : j < pt.length)
    (hj2 : j < ct.2.length) :
    (addPlain q ct pt).1 = ct.1
    ∧ (addPlain q ct pt).2.length = ct.2.length
    ∧ (addPlain q ct pt).2.getD k 0 = ct.2.getD k 0
    ∧ (addPlain q ct pt).2.getD j 0
        = ct.2.getD j 0 + (pt.getD j 0 : ZMod q) * delta q :=
  ⟨rfl, length_addPlainLoop q ct.2 pt,
    getD_addPlainLoop_ge q ct.2 pt k hk,
    getD_addPlainLoop_lt q ct.2 pt j hj1 hj2⟩

/-- Witness for the amended C8 at `q = 65537`, `ct.c1 = [3,4]`,
`pt = [7]`, untouched index `k = 1`, updated index `j = 0`. -/
theorem C8_amended_witness :
    (addPlain 65537 (([1, 2], [3, 4]) : Ct 65537) [7]).1 = [1, 2]
    ∧ (addPlain 65537 (([1, 2], [3, 4]) : Ct 65537) [7]).2.length
        = ([3, 4] : List (ZMod 65537)).length
    ∧ (addPlain 65537 (([1, 2], [3, 4]) : Ct 65537) [7]).2.getD 1 0
        = (([3, 4] : List (ZMod 65537)).getD 1 0)
    ∧ (addPlain 65537 (([1, 2], [3, 4]) : Ct 65537) [7]).2.getD 0 0
        = (([3, 4] : List (ZMod 65537)).getD 0 0)
          + (([7] : List ℕ).getD 0 0 : ZMod 65537) * delta 65537 :=
  C8_amended_silent_truncation 65537 (([1, 2], [3, 4]) : Ct 65537) [7] 1 0
    (by simp) (by simp) (by simp)

/-- Counterexample to **C6** ("every public constructor sets
`σ_flood ≥ 2^40`"): `FV::new` sets `flooding_stdev: 1f64`. -/
theorem C6_counterexample :
    (FVnew 16 65537).flooding_stdev = 1
    ∧ ¬ ((2 : ℚ) ^ 40 ≤ (FVnew 16 65537).flooding_stdev) := by
  refine ⟨rfl, ?_⟩
  rw [show (FVnew 16 65537).flooding_stdev = 1 from rfl]
  norm_num

/-- **C6 (amended).** `default_2048` (hence the crate-level `default()`)
sets `σ_flood = 2^40`, which meets the `≥ 2^40` bound; but `FV::new`
sets `flooding_stdev = 1`, so instances built by `FV::new` do not satisfy
the bound. -/
theorem C6_amended_flooding (n q : ℕ) :
    (FVnew n q).flooding_stdev = 1
    ∧ default2048.flooding_stdev = 2 ^ 40
    ∧ defaultScheme.flooding_stdev = 2 ^ 40
    ∧ (2 : ℚ) ^ 40 ≤ default2048.flooding_stdev :=
  ⟨rfl, rfl, rfl, le_refl _⟩

end Cupcake

namespace CupcakeB

/-- A polynomial with its representation tag.
Modelled from the spec: §3 "A polynomial carries a representation tag:
coefficient form or NTT form"; `rqpoly.rs` (the `RqPoly` struct) is absent
from the sources. -/
structure TPoly (q : ℕ) where
  coeffs : List (ZMod q)
  is_ntt_form : Bool
deriving DecidableEq

/-- The ring context.
Modelled from the spec: §3 "Ring context" — `n` (with `logn = ⌈log₂ n⌉`
precomputed), the 2n-th root of unity `ψ`, its inverse, the precomputed
`n⁻¹ mod q`, and `is_ntt_enabled`
(`RqPolyContext` of `rqpoly.rs`, absent from the sources). -/
structure Ctx (q : ℕ) where
  n : ℕ
  logn : ℕ
  psi : ZMod q
  psiInv : ZMod q
  nInv : ZMod q
  is_ntt_enabled : Bool

/-- Bit reversal of a `b`-bit integer.
Modelled from the spec: §4.2.4 "br is the bit-reverse of an ⌈log₂ n⌉-bit
integer". -/
def bitrev : ℕ → ℕ → ℕ
  | 0, _ => 0
  | b + 1, i => i % 2 * 2 ^ b + bitrev b (i / 2)

/-- Forward negacyclic NTT coefficients.
Modelled from the spec: §3/§4.2.4 — NTT form is the "point-value form on
the 2n-th roots of unity, scrambled by bit-reversal", i.e. entry `i` is
the evaluation at `ψ^(2·br(i)+1)`. -/
def fwdCoeffs {q : ℕ} (ctx : Ctx q) (a : List (ZMod q)) : List (ZMod q) :=
  (List.range ctx.n).map (fun i =>
    ∑ j ∈ Finset.range ctx.n,
      a.getD j 0 * ctx.psi ^ ((2 * bitrev ctx.logn i + 1) * j))

/-- `forward_transform` flips the tag coefficient → NTT (spec §4.2.4). -/
def forward_transform {q : ℕ} (ctx : Ctx q) (p : TPoly q) : TPoly q :=
  ⟨fwdCoeffs ctx p.coeffs, true⟩

/-- Inverse negacyclic NTT coefficients.
Modelled from the spec: §4.2.4 — inverse twiddles followed by the `n⁻¹`
scaling; interpolation back from the point values at `ψ^(2·br(i)+1)`. -/
def invCoeffs {q : ℕ} (ctx : Ctx q) (a : List (ZMod q)) : List (ZMod q) :=
  (List.range ctx.n).map (fun j =>
    ctx.nInv * ∑ i ∈ Finset.range ctx.n,
      a.getD i 0 * ctx.psiInv ^ ((2 * bitrev ctx.logn i + 1) * j))

/-- `inverse_transform` flips the tag NTT → coefficient (spec §4.2.4). -/
def inverse_transform {q : ℕ} (ctx : Ctx q) (p : TPoly q) : TPoly q :=
  ⟨invCoeffs ctx p.coeffs, false⟩

/-- Tagged in-place addition (spec §4.2.1: valid in either form; the
receiver's tag is unchanged by the in-place loop). -/
def addInplaceT {q : ℕ} (a b : TPoly q) : TPoly q :=
  ⟨Cupcake.addInplace a.coeffs b.coeffs, a.is_ntt_form⟩

/-- Tagged in-place subtraction. -/
def subInplaceT {q : ℕ} (a b : TPoly q) : TPoly q :=
  ⟨Cupcake.subInplace a.coeffs b.coeffs, a.is_ntt_form⟩

/-- `RqPoly::multiply_fast`.
Modelled from the spec: §4.2.3 — "Both operands must already be in NTT
form.  The product is element-wise: c[i] = a[i]·b[i] mod q.  The caller is
responsible for any forward/inverse transform."  The element-wise product
of two point-value (NTT) forms is the NTT form of the ring product, so
the result carries the NTT tag. -/
def multiply_fast {q : ℕ} (a b : TPoly q) : TPoly q :=
  ⟨List.zipWith (· * ·) a.coeffs b.coeffs, true⟩

/-- `RqPoly::multiply` (schoolbook, coefficient form; spec §4.2.2). -/
def multiply {q : ℕ} (ctx : Ctx q) (a b : TPoly q) : TPoly q :=
  ⟨Cupcake.negconv q ctx.n a.coeffs b.coeffs, false⟩

/-- The `poly_multiplier` dispatch selected at construction
(src/lib.rs 174-196 / 199-221, spec §4.2.6): `multiply_fast` when NTT is
enabled, `multiply` otherwise. -/
def polyMultiplier {q : ℕ} (ctx : Ctx q) (a b : TPoly q) : TPoly q :=
  if ctx.is_ntt_enabled then multiply_fast a b else multiply ctx a b

/-- `FV::generate_key` (src/lib.rs 301-307): sample a ternary polynomial
(coefficient form, spec §4.3), and forward-transform it *before returning*
when NTT is enabled. -/
def generateKey {q : ℕ} (ctx : Ctx q) (skraw : List (ZMod q)) : TPoly q :=
  let p : TPoly q := ⟨skraw, false⟩
  if ctx.is_ntt_enabled then forward_transform ctx p else p

/-- `FV::encrypt_zero_sk` (src/lib.rs 309-315): `a` uniform, `e` Gaussian
(both coefficient form on return, spec §4.3); `b = poly_multiplier(a, sk) + e`. -/
def encryptZeroSk {q : ℕ} (ctx : Ctx q) (sk : TPoly q) (a e : List (ZMod q)) :
    TPoly q × TPoly q :=
  let ap : TPoly q := ⟨a, false⟩
  let ep : TPoly q := ⟨e, false⟩
  (ap, addInplaceT (polyMultiplier ctx ap sk) ep)

/-- `FV::generate_keypair` (src/lib.rs 284-292): `sk = generate_key()`
(already transformed inside `generate_key` when NTT is enabled), then
`pk = encrypt_zero_sk(sk)`, then forward-transform the two public-key
polynomials when NTT is enabled. -/
def generateKeypair {q : ℕ} (ctx : Ctx q) (skraw a e : List (ZMod q)) :
    (TPoly q × TPoly q) × TPoly q :=
  let sk := generateKey ctx skraw
  let pk := encryptZeroSk ctx sk a e
  if ctx.is_ntt_enabled then
    ((forward_transform ctx pk.1, forward_transform ctx pk.2), sk)
  else (pk, sk)

/-- The phase `ct.1 − poly_multiplier(ct.0, sk)` computed by `decrypt`. -/
def phaseT {q : ℕ} (ctx : Ctx q) (ct : TPoly q × TPoly q) (sk : TPoly q) :
    TPoly q :=
  subInplaceT ct.2 (polyMultiplier ctx ct.1 sk)

/-- `FV::decrypt` (src/lib.rs 335-352) on the tagged model: compute the
phase and extract a byte from every stored coefficient.  Note: the source
contains *no* inverse transform between the phase computation and the
byte-extraction loop. -/
def decrypt {q : ℕ} (ctx : Ctx q) (ct : TPoly q × TPoly q) (sk : TPoly q) :
    List ℕ :=
  (phaseT ctx ct sk).coeffs.map (Cupcake.extractByte q)

/-- The decryption pipeline the claim (and spec §4.4.4 step 2) describes:
"If phase is in NTT form, inverse-transform it" before byte extraction. -/
def decryptClaimed {q : ℕ} (ctx : Ctx q) (ct : TPoly q × TPoly q)
    (sk : TPoly q) : List ℕ :=
  let ph := phaseT ctx ct sk
  let ph' := if ph.is_ntt_form then inverse_transform ctx ph else ph
  ph'.coeffs.map (Cupcake.extractByte q)

/-- The key-generation order the claim describes: `encrypt_zero_sk`
applied to the secret key *still in coefficient form*, and only
afterwards forward-transform the secret key and the two public-key
polynomials. -/
def generateKeypairClaimed {q : ℕ} (ctx : Ctx q) (skraw a e : List (ZMod q)) :
    (TPoly q × TPoly q) × TPoly q :=
  let s : TPoly q := ⟨skraw, false⟩
  let pk := encryptZeroSk ctx s a e
  if ctx.is_ntt_enabled then
    ((forward_transform ctx pk.1, forward_transform ctx pk.2),
      forward_transform ctx s)
  else (pk, s)

/-- A tiny NTT-enabled context: `n = 2`, `q = 5`, `ψ = 2` (with
`ψ² = 4 = −1 mod 5`), `ψ⁻¹ = 3`, `n⁻¹ = 3`. -/
def toyCtx : Ctx 5 :=
  { n := 2, logn := 1, psi := 2, psiInv := 3, nInv := 3, is_ntt_enabled := true }

/-- **C7 (code bug).** In the NTT-enabled model the phase carries the NTT
tag, yet `decrypt` (which contains no inverse transform) extracts bytes
directly from it, disagreeing with the claimed pipeline that
inverse-transforms first.  Concretely, at `toyCtx` with an NTT-form
ciphertext and key, `decrypt` returns `[51, 0]` but the claimed pipeline
returns `[154, 205]`. -/
theorem C7_decrypt_skips_inverse_transform :
    (phaseT toyCtx ((⟨[0, 0], true⟩ : TPoly 5), (⟨[1, 0], true⟩ : TPoly 5))
      (⟨[1, 1], true⟩ : TPoly 5)).is_ntt_form = true
    ∧ decrypt toyCtx ((⟨[0, 0], true⟩ : TPoly 5), (⟨[1, 0], true⟩ : TPoly 5))
        (⟨[1, 1], true⟩ : TPoly 5)
      ≠ decryptClaimed toyCtx
          ((⟨[0, 0], true⟩ : TPoly 5), (⟨[1, 0], true⟩ : TPoly 5))
          (⟨[1, 1], true⟩ : TPoly 5) := by
  constructor
  · rfl
  · decide

/-- Counterexample to **C9**: at `toyCtx`, the keypair the code computes
differs from the keypair computed by the claimed order (`encrypt_zero_sk`
on the coefficient-form secret key, transforms afterwards), because
`generate_key` has already forward-transformed the secret key before
`encrypt_zero_sk` runs. -/
theorem C9_counterexample :
    generateKeypair toyCtx [1, 0] [0, 1] [0, 0]
      ≠ generateKeypairClaimed toyCtx [1, 0] [0, 1] [0, 0] := by
  decide

/-- **C9 (amended).** When NTT is enabled, `generate_key` itself
forward-transforms the secret key before returning, so `generate_keypair`
applies `encrypt_zero_sk` to the *already NTT-form* secret key and
afterwards forward-transforms only the two public-key polynomials. -/
theorem C9_amended_keygen_order (q : ℕ) (ctx : Ctx q)
    (skraw a e : List (ZMod q)) (hntt : ctx.is_ntt_enabled = true) :
    (generateKey ctx skraw).is_ntt_form = true
    ∧ generateKeypair ctx skraw a e
      = ((forward_transform ctx (encryptZeroSk ctx (generateKey ctx skraw) a e).1,
          forward_transform ctx (encryptZeroSk ctx (generateKey ctx skraw) a e).2),
          generateKey ctx skraw) := by
  constructor
  · simp [generateKey, hntt, forward_transform]
  · simp [generateKeypair, hntt]

/-- Witness for the amended C9 at the toy NTT context. -/
theorem C9_amended_witness :
    (generateKey toyCtx [1, 0]).is_ntt_form = true
    ∧ generateKeypair toyCtx [1, 0] [0, 1] [0, 0]
      = ((forward_transform toyCtx
            (encryptZeroSk toyCtx (generateKey toyCtx [1, 0]) [0, 1] [0, 0]).1,
          forward_transform toyCtx
            (encryptZeroSk toyCtx (generateKey toyCtx [1, 0]) [0, 1] [0, 0]).2),
          generateKey toyCtx [1, 0]) :=
  C9_amended_keygen_order 5 toyCtx [1, 0] [0, 1] [0, 0] rfl

end CupcakeB
